import Mathlib

/-!
Verification of the per-user vector document store (rag_system.py) and the
bounded working-memory window with its consolidation pipeline
(simple_qa_chatbot.py).

The embedding is shallow: the embedding model is an abstract function
from text to an integer coordinate vector, inner products are exact, and
the Faiss index is a list of vectors plus a trained flag.  Python dicts
(which preserve insertion order, keep the position of a key on value
update, and remove the slot on delete) are modelled as association lists
with the corresponding operations.  Disk writes are counted by a
save_count field incremented exactly where rag_system.py calls
save_database.
-/

/-- Embedding vectors: finite rational coordinate lists. -/
abbrev Vec := List ℤ

/-- Document metadata payload (opaque key/value pairs). -/
abbrev Meta := List (String × String)

/-- Inner product of two vectors (numpy dot of equal-length vectors). -/
def dot (u v : Vec) : ℤ := (List.zipWith (· * ·) u v).sum

/-! ## Python dict model (insertion-ordered association lists) -/

/-- Python d[k] lookup returning an Option. -/
def dict_get (d : List (String × α)) (k : String) : Option α :=
  (d.find? (fun kv => kv.1 == k)).map (fun kv => kv.2)

/-- Python d[k] = v: replace in place if the key exists, else append. -/
def dict_set (d : List (String × α)) (k : String) (v : α) : List (String × α) :=
  if d.any (fun kv => kv.1 == k) then
    d.map (fun kv => if kv.1 == k then (k, v) else kv)
  else d ++ [(k, v)]

/-- Python del d[k]: drop the entry with that key. -/
def dict_erase (d : List (String × α)) (k : String) : List (String × α) :=
  d.filter (fun kv => kv.1 != k)

/-- Python list(d.keys()).index(k): ordinal position of a key. -/
def dict_index_of (d : List (String × α)) (k : String) : ℕ :=
  d.findIdx (fun kv => kv.1 == k)

/-! ## Faiss index model and RAGSystem state (rag_system.py) -/

/-- The three index strategies of RAGSystem. -/
inductive IndexType | flat | ivf | hnsw
deriving DecidableEq

/-- A Faiss index: its stored vectors in insertion order plus the
is_trained flag (always true for flat and hnsw, false for a fresh IVF). -/
structure FaissIndex where
  vecs : List Vec
  is_trained : Bool
deriving DecidableEq

/-- RAGSystem._create_index. -/
def create_index : IndexType → FaissIndex
  | .flat => { vecs := [], is_trained := true }
  | .ivf => { vecs := [], is_trained := false }
  | .hnsw => { vecs := [], is_trained := true }

/-- The IVF training threshold hard-coded in add/update/rebuild (100). -/
def train_threshold : ℕ := 100

/-- In-memory state of one loaded per-user RAGSystem database.
save_count counts completed save_database calls. -/
structure RAGSystem where
  index_type : IndexType
  documents : List (String × String)
  metadata : List (String × Meta)
  doc_counter : ℕ
  index : FaissIndex
  save_count : ℕ
deriving DecidableEq

/-- A fresh user database (RAGSystem._ensure_user_database, new-user branch). -/
def fresh_rag (t : IndexType) : RAGSystem :=
  { index_type := t, documents := [], metadata := [], doc_counter := 0,
    index := create_index t, save_count := 0 }

/-- RAGSystem.add_document for the already-loaded user database.
Returns the doc_id and the successor state. -/
def add_document (e : String → Vec) (st : RAGSystem) (document : String)
    (md : Meta) : String × RAGSystem :=
  let doc_id := "doc_" ++ toString st.doc_counter
  let st1 : RAGSystem :=
    { st with doc_counter := st.doc_counter + 1,
              documents := dict_set st.documents doc_id document,
              metadata := dict_set st.metadata doc_id md }
  let embedding := e document
  if st1.index_type = .ivf ∧ st1.index.is_trained = false then
    if train_threshold ≤ st1.documents.length then
      let all_embeddings := st1.documents.map (fun kv => e kv.2)
      let st2 : RAGSystem :=
        { st1 with index := { vecs := all_embeddings, is_trained := true } }
      (doc_id, { st2 with save_count := st2.save_count + 1 })
    else
      (doc_id, st1)
  else
    let st2 : RAGSystem :=
      { st1 with index := { st1.index with
                              vecs := st1.index.vecs ++ [embedding] } }
    (doc_id, { st2 with save_count := st2.save_count + 1 })

/-- RAGSystem._rebuild_index_without_document: fresh index, then add the
embeddings of the current documents with the given position popped. -/
def rebuild_index_without_document (e : String → Vec) (st : RAGSystem)
    (exclude_position : ℕ) : RAGSystem :=
  let idx0 := create_index st.index_type
  let doc_list0 := st.documents.map (fun kv => kv.2)
  let doc_list :=
    if exclude_position < doc_list0.length then
      doc_list0.eraseIdx exclude_position
    else doc_list0
  if doc_list.isEmpty then { st with index := idx0 }
  else
    let embeddings := doc_list.map e
    let idx1 :=
      if st.index_type = .ivf ∧ train_threshold ≤ doc_list.length then
        { idx0 with is_trained := true }
      else idx0
    let idx2 :=
      if st.index_type ≠ .ivf ∨ idx1.is_trained then
        { idx1 with vecs := idx1.vecs ++ embeddings }
      else idx1
    { st with index := idx2 }

/-- RAGSystem._retrain_ivf_index. -/
def retrain_ivf_index (e : String → Vec) (st : RAGSystem) : RAGSystem :=
  if st.documents.isEmpty then st
  else
    { st with index := { vecs := st.documents.map (fun kv => e kv.2),
                         is_trained := true } }

/-- RAGSystem.update_document for the loaded user database. -/
def update_document (e : String → Vec) (st : RAGSystem)
    (doc_id new_document : String) (new_metadata : Option Meta) :
    Bool × RAGSystem :=
  if (dict_get st.documents doc_id).isNone then (false, st)
  else
    let doc_position := dict_index_of st.documents doc_id
    let st1 := rebuild_index_without_document e st doc_position
    let st2 : RAGSystem :=
      { st1 with documents := dict_set st1.documents doc_id new_document,
                 metadata :=
                   match new_metadata with
                   | some m => dict_set st1.metadata doc_id m
                   | none => st1.metadata }
    let embedding := e new_document
    let st3 :=
      if st2.index_type = .ivf ∧ st2.index.is_trained = false then
        if train_threshold ≤ st2.documents.length then
          retrain_ivf_index e st2
        else st2
      else
        { st2 with index := { st2.index with
                                vecs := st2.index.vecs ++ [embedding] } }
    (true, { st3 with save_count := st3.save_count + 1 })

/-- RAGSystem.delete_document for the loaded user database.  Note the
source computes the position first, removes the entry, and only then
rebuilds with that (now stale) position. -/
def delete_document (e : String → Vec) (st : RAGSystem) (doc_id : String) :
    Bool × RAGSystem :=
  if (dict_get st.documents doc_id).isNone then (false, st)
  else
    let doc_position := dict_index_of st.documents doc_id
    let st1 : RAGSystem :=
      { st with documents := dict_erase st.documents doc_id,
                metadata := dict_erase st.metadata doc_id }
    let st2 := rebuild_index_without_document e st1 doc_position
    (true, { st2 with save_count := st2.save_count + 1 })

/-- The statistics record RAGSystem.get_stats reports. -/
structure Stats where
  num_documents : ℕ
  index_type : IndexType
  dimension : ℕ
  is_trained : Bool
deriving DecidableEq

/-- RAGSystem.get_stats for the loaded user database. -/
def get_stats (st : RAGSystem) : Stats :=
  { num_documents := st.documents.length, index_type := st.index_type,
    dimension := 384, is_trained := st.index.is_trained }

/-! ## Search (rag_system.py lines 231-277)

Faiss exact (flat) search is modelled as repeated selection of the
highest-scoring remaining index (earliest index on equal scores);
numpy argsort is modelled as a stable ascending insertion sort of
(index, score) pairs, which the source then reverses and truncates. -/

/-- Pair each element with its position, starting at a given offset. -/
def idx_map : ℕ → List ℤ → List (ℕ × ℤ)
  | _, [] => []
  | i, a :: as => (i, a) :: idx_map (i + 1) as

/-- First (index, score) entry holding the maximal score. -/
def argmax_entry : List (ℕ × ℤ) → Option (ℕ × ℤ)
  | [] => none
  | a :: as =>
    match argmax_entry as with
    | none => some a
    | some b => if a.2 < b.2 then some b else some a

/-- Remove the first occurrence of an entry from a list. -/
def remove_first (m : ℕ × ℤ) : List (ℕ × ℤ) → List (ℕ × ℤ)
  | [] => []
  | x :: xs => if x = m then xs else x :: remove_first m xs

/-- Top-k selection by descending score (ties: earliest index first). -/
def select_top : ℕ → List (ℕ × ℤ) → List (ℕ × ℤ)
  | 0, _ => []
  | k + 1, l =>
    match argmax_entry l with
    | none => []
    | some m => m :: select_top k (remove_first m l)

/-- faiss Index.search on the stored vectors: the k best (row, score)
pairs for the query, at most ntotal of them. -/
def faiss_search (query : Vec) (idx : FaissIndex) (k : ℕ) : List (ℕ × ℤ) :=
  select_top k (idx_map 0 (idx.vecs.map (fun v => dot v query)))

/-- Comparison used to model numpy argsort over (index, score) pairs. -/
def score_le (a b : ℕ × ℤ) : Prop := a.2 ≤ b.2

instance : DecidableRel score_le := fun a b =>
  inferInstanceAs (Decidable (a.2 ≤ b.2))

instance : IsTotal (ℕ × ℤ) score_le := ⟨fun a b => le_total a.2 b.2⟩

instance : IsTrans (ℕ × ℤ) score_le :=
  ⟨fun _ _ _ h1 h2 => le_trans h1 h2⟩

/-- Strictly-descending score order on (index, score) pairs. -/
def score_gt (a b : ℕ × ℤ) : Prop := b.2 < a.2

instance : IsAntisymm (ℕ × ℤ) score_gt :=
  ⟨fun _ _ h1 h2 => absurd (lt_trans h1 h2) (lt_irrefl _)⟩

/-- numpy argsort of a score vector: index order of a stable ascending
sort by score. -/
def np_argsort (sims : List ℤ) : List ℕ :=
  ((idx_map 0 sims).insertionSort score_le).map (fun p => p.1)

/-- RAGSystem.search for the loaded user database: pick the (row, score)
pairs (exhaustive fallback when the IVF index is untrained, index search
otherwise), then map rows through the current key order of documents,
skipping out-of-range rows. -/
def search (e : String → Vec) (st : RAGSystem) (query : String)
    (top_k : ℕ) : List (String × String × ℤ × Meta) :=
  if st.documents.length = 0 then []
  else
    let query_embedding := e query
    let pairs : List (ℕ × ℤ) :=
      if st.index_type = .ivf ∧ st.index.is_trained = false then
        let similarities :=
          st.documents.map (fun kv => dot (e kv.2) query_embedding)
        ((np_argsort similarities).reverse.take top_k).map
          (fun i => (i, similarities.getD i 0))
      else
        faiss_search query_embedding st.index
          (min top_k st.documents.length)
    let doc_ids := st.documents.map (fun kv => kv.1)
    pairs.filterMap (fun p =>
      if p.1 < doc_ids.length then
        let doc_id := doc_ids.getD p.1 ""
        some (doc_id, (dict_get st.documents doc_id).getD "", p.2,
          (dict_get st.metadata doc_id).getD [])
      else none)

/-! ## Working-memory window (simple_qa_chatbot.py)

The background RAG round-trip for one evicted turn is abstracted as an
oracle String → Bool: true means the call returns, false means it
raises.  The pipeline records which user texts were attempted; the
single try/except around the whole loop means a failure aborts the rest
of the batch while the caller observes nothing. -/

/-- Message roles in the conversation history. -/
inductive Role | user | assistant
deriving DecidableEq

/-- One entry of conversation_history. -/
abbrev Message := Role × String

/-- One entry of message_memory_mapping: (user_text, retrieved_docs). -/
abbrev MemoryMapping := String × List String

/-- State of SimpleQAChatBot relevant to window management. -/
structure ChatBot where
  conversation_history : List Message
  message_memory_mapping : List MemoryMapping
  max_history_length : ℕ
  max_working_length : ℕ
deriving DecidableEq

/-- A fresh chatbot with N retained pairs (threshold 2N). -/
def mk_chatbot (n : ℕ) : ChatBot :=
  { conversation_history := [], message_memory_mapping := [],
    max_history_length := n, max_working_length := n * 2 }

/-- SimpleQAChatBot._process_old_messages_to_background_memory, returning
the list of user texts whose background chat call was attempted: the for
loop sits inside one try/except, so the first failing call ends the
batch. -/
def process_old_messages (bg : String → Bool) :
    List MemoryMapping → List String
  | [] => []
  | m :: rest =>
    if bg m.1 then m.1 :: process_old_messages bg rest
    else [m.1]

/-- Python l[-k:], including the l[-0:] = l quirk. -/
def py_tail (k : ℕ) (l : List α) : List α :=
  if k = 0 then l else l.drop (l.length - k)

/-- SimpleQAChatBot._manage_conversation_history: clip to the newest N
pairs once the pair count reaches 2N, forwarding the removed mapping
prefix to the consolidation pipeline first.  Also returns the attempted
consolidation texts. -/
def manage_conversation_history (bg : String → Bool) (cb : ChatBot) :
    ChatBot × List String :=
  let message_pairs := cb.conversation_history.length / 2
  if cb.max_working_length ≤ message_pairs then
    let messages_to_keep := cb.max_history_length * 2
    let pairs_to_remove := message_pairs - cb.max_history_length
    let old := cb.message_memory_mapping.take pairs_to_remove
    let attempted := if old.isEmpty then [] else process_old_messages bg old
    ({ cb with
        conversation_history :=
          py_tail messages_to_keep cb.conversation_history,
        message_memory_mapping :=
          py_tail cb.max_history_length cb.message_memory_mapping },
      attempted)
  else (cb, [])

/-- One SimpleQAChatBot.chat call after the assistant reply is available:
append the mapping entry and the user/assistant pair, then manage the
window.  Returns the new state and the attempted consolidation texts. -/
def chat_step (bg : String → Bool) (cb : ChatBot)
    (user_message assistant_response : String) : ChatBot × List String :=
  let cb1 : ChatBot :=
    { cb with message_memory_mapping :=
        cb.message_memory_mapping ++ [(user_message, [])] }
  let cb2 : ChatBot :=
    { cb1 with conversation_history :=
        cb1.conversation_history ++
          [(Role.user, user_message), (Role.assistant, assistant_response)] }
  manage_conversation_history bg cb2

/-- A run of chat over a list of user turns, collecting every text
forwarded to consolidation in order. -/
def run_chat (bg : String → Bool) (cb : ChatBot) :
    List String → ChatBot × List String
  | [] => (cb, [])
  | u :: us =>
    let step := chat_step bg cb u ("re " ++ u)
    let rest := run_chat bg step.1 us
    (rest.1, step.2 ++ rest.2)

/-! ## Concrete scenario data used by witnesses and counterexamples -/

/-- A concrete embedding assigning orthogonal unit vectors. -/
def demo_embed : String → Vec := fun s =>
  if s = "a" then [1, 0, 0] else if s = "b" then [0, 1, 0] else [0, 0, 1]

/-- Flat store holding doc_0 = "a" and doc_1 = "b". -/
def st_ab : RAGSystem :=
  (add_document demo_embed
    (add_document demo_embed (fresh_rag .flat) "a" []).2 "b" []).2

/-- The same corpus as st_ab under the clustered (IVF) variant, untrained. -/
def st_ab_ivf : RAGSystem :=
  { st_ab with index_type := .ivf,
               index := { vecs := [], is_trained := false } }

/-- st_ab after delete_document of doc_0 (the stale-position rebuild drops
the surviving vector too). -/
def st_ab_del0 : RAGSystem := (delete_document demo_embed st_ab "doc_0").2

/-- st_ab_del0 after adding document "c". -/
def st_ab_del0_c : RAGSystem :=
  (add_document demo_embed st_ab_del0 "c" []).2

/-- Background-chat oracle that raises exactly on the text "m1". -/
def bad_bg : String → Bool := fun s => !(s == "m1")

/-- Seven consecutive user turns. -/
def seven_turns : List String :=
  ["u1", "u2", "u3", "u4", "u5", "u6", "u7"]

/-- A chat run with N = 3 over seven turns, all consolidations succeeding. -/
def run7 : ChatBot × List String :=
  run_chat (fun _ => true) (mk_chatbot 3) seven_turns

/-- A chatbot state with N = 3 holding six full pairs and their mapping. -/
def chat6 : ChatBot :=
  { conversation_history :=
      [(Role.user, "u1"), (Role.assistant, "r1"),
       (Role.user, "u2"), (Role.assistant, "r2"),
       (Role.user, "u3"), (Role.assistant, "r3"),
       (Role.user, "u4"), (Role.assistant, "r4"),
       (Role.user, "u5"), (Role.assistant, "r5"),
       (Role.user, "u6"), (Role.assistant, "r6")],
    message_memory_mapping :=
      [("u1", []), ("u2", []), ("u3", []),
       ("u4", []), ("u5", []), ("u6", [])],
    max_history_length := 3, max_working_length := 6 }

/-! ## Dictionary lemmas -/

theorem dict_set_length_le (d : List (String × α)) (k : String) (v : α) :
    (dict_set d k v).length ≤ d.length + 1 := by
  unfold dict_set
  split
  · simp
  · simp

theorem find_map_set_of_any (d : List (String × α)) (k : String) (v : α)
    (h : d.any (fun kv => kv.1 == k) = true) :
    (d.map (fun kv => if kv.1 == k then (k, v) else kv)).find?
      (fun kv => kv.1 == k) = some (k, v) := by
  induction d with
  | nil => simp at h
  | cons kv rest ih =>
    rw [List.map_cons]
    by_cases hk : (kv.1 == k) = true
    · rw [if_pos hk]
      exact List.find?_cons_of_pos _ (by simp)
    · rw [if_neg hk]
      have hrest : rest.any (fun kv => kv.1 == k) = true := by
        simp only [List.any_cons, Bool.or_eq_true] at h
        exact h.resolve_left hk
      have hk2 : (kv.1 == k) = false := by rwa [Bool.not_eq_true] at hk
      simp only [List.find?_cons, hk2]
      exact ih hrest

theorem find_append_of_not_any (d l : List (String × α))
    (p : (String × α) → Bool) (h : d.any p = false) :
    (d ++ l).find? p = l.find? p := by
  induction d with
  | nil => simp
  | cons kv rest ih =>
    simp only [List.any_cons, Bool.or_eq_false_iff] at h
    rw [List.cons_append]
    simp only [List.find?_cons, h.1]
    exact ih h.2

theorem dict_get_set (d : List (String × α)) (k : String) (v : α) :
    dict_get (dict_set d k v) k = some v := by
  unfold dict_get dict_set
  by_cases h : d.any (fun kv => kv.1 == k) = true
  · rw [if_pos h, find_map_set_of_any d k v h]
    rfl
  · rw [Bool.not_eq_true] at h
    rw [if_neg (by simp [h]), find_append_of_not_any _ _ _ h,
      List.find?_cons_of_pos _ (by simp)]
    rfl

/-! ## Claim C1: document/vector alignment invariant (code_bug)

delete_document removes the dict entry first and then rebuilds with the
position computed beforehand, so the pop lands on the successor of the
deleted document and the index loses a surviving vector; update_document
appends the fresh embedding at the end while the updated doc_id keeps its
old dict position.  Both break the stated invariant while the flat
(always trained/indexed) index is in play. -/

/-- C1: on the concrete flat store with documents a, b, deleting doc_0
leaves one document but zero vectors (count invariant broken, index still
in its always-indexed flat state), and updating doc_0 leaves the vectors
misaligned with the iteration order of documents. -/
theorem c1_alignment_invariant_broken :
    st_ab_del0.index.is_trained = true ∧
    st_ab_del0.documents.length = 1 ∧
    st_ab_del0.index.vecs.length = 0 ∧
    st_ab_del0.index.vecs.length ≠ st_ab_del0.documents.length ∧
    (update_document demo_embed st_ab "doc_0" "c" none).2.index.vecs ≠
      (update_document demo_embed st_ab "doc_0" "c" none).2.documents.map
        (fun kv => demo_embed kv.2) := by decide

/-! ## Claim C2: add_document persistence (code_bug)

On the clustered (IVF) variant while untrained and below the training
size, add_document returns the doc_id from inside the training guard
without reaching the save_database call: the document is inserted in
memory but no snapshot write happens. -/

/-- C2: with an untrained IVF index and a corpus below the training
threshold, add_document returns the fresh doc_id, stores the document,
and performs no snapshot write (save_count unchanged). -/
theorem c2_untrained_ivf_add_skips_save (e : String → Vec) (st : RAGSystem)
    (document : String) (md : Meta)
    (h1 : st.index_type = .ivf) (h2 : st.index.is_trained = false)
    (h3 : st.documents.length + 1 < train_threshold) :
    (add_document e st document md).1 =
      "doc_" ++ toString st.doc_counter ∧
    (add_document e st document md).2.save_count = st.save_count ∧
    dict_get (add_document e st document md).2.documents
      ("doc_" ++ toString st.doc_counter) = some document := by
  have hlen : ¬ train_threshold ≤
      (dict_set st.documents ("doc_" ++ toString st.doc_counter)
        document).length := by
    have := dict_set_length_le st.documents
      ("doc_" ++ toString st.doc_counter) document
    omega
  simp [add_document, h1, h2, hlen, dict_get_set]

/-- C2 witness: concretely, adding to a fresh untrained IVF store returns
doc_0 with no snapshot write. -/
theorem c2_witness :
    (fresh_rag .ivf).index_type = .ivf ∧
    (fresh_rag .ivf).index.is_trained = false ∧
    (fresh_rag .ivf).documents.length + 1 < train_threshold ∧
    ((add_document demo_embed (fresh_rag .ivf) "x" []).1 =
        "doc_" ++ toString (fresh_rag .ivf).doc_counter ∧
      (add_document demo_embed (fresh_rag .ivf) "x" []).2.save_count =
        (fresh_rag .ivf).save_count ∧
      dict_get (add_document demo_embed (fresh_rag .ivf) "x" []).2.documents
        ("doc_" ++ toString (fresh_rag .ivf).doc_counter) = some "x") :=
  ⟨by decide, by decide, by decide,
    c2_untrained_ivf_add_skips_save demo_embed (fresh_rag .ivf) "x" []
      (by decide) (by decide) (by decide)⟩

/-! ## Claim C3: window arithmetic after 7 turns (corrected)

The trim fires when the pair count reaches 2N (the source tests
message_pairs >= max_working_length), so with N = 3 the first clip
happens at turn 6, forwarding the three oldest pairs; turn 7 then grows
the window back to four pairs with no further clip. -/

/-- C3 counterexample: after 7 user turns with N = 3 it is not the case
that the window holds 3 pairs and 4 pairs were forwarded. -/
theorem c3_counterexample :
    ¬ (run7.1.conversation_history.length / 2 = 3 ∧
        run7.2.length = 4) := by decide

/-- C3 amended: after 7 user turns with N = 3 the window holds exactly 4
pairs (turns 4-7 in order) and exactly 3 pairs were forwarded to
consolidation, in original chronological order. -/
theorem c3_amended_window_after_seven_turns :
    run7.1.conversation_history.length / 2 = 4 ∧
    run7.2 = ["u1", "u2", "u3"] ∧
    run7.1.conversation_history.map (fun m => m.2) =
      ["u4", "re u4", "u5", "re u5", "u6", "re u6", "u7", "re u7"] := by
  decide

/-! ## Claim C4: batch consolidation on failure (corrected)

The whole eviction loop sits inside one try/except, so a raising
background call aborts every later item of the batch; items are still
attempted strictly oldest-first. -/

/-- Shared characterization: the attempted consolidations are exactly the
oldest-first prefix of the batch up to and including the first failing
turn. -/
theorem process_old_messages_eq_take (bg : String → Bool)
    (ms : List MemoryMapping) :
    process_old_messages bg ms =
      (ms.map (fun m => m.1)).take
        (ms.findIdx (fun m => !(bg m.1)) + 1) := by
  induction ms with
  | nil => rfl
  | cons m rest ih =>
    by_cases h : bg m.1 = true
    · simp [process_old_messages, h, List.findIdx_cons, ih]
    · have h2 : bg m.1 = false := by rwa [Bool.not_eq_true] at h
      simp [process_old_messages, h2, List.findIdx_cons]

/-- C4 amended: consolidation proceeds strictly oldest-first, but is not
resumed after a failure: the attempted turns always form the prefix of
the batch ending at the first failing turn, so a later turn never runs
once an earlier one fails. -/
theorem c4_amended_failure_aborts_batch (bg : String → Bool)
    (ms : List MemoryMapping) :
    process_old_messages bg ms =
      (ms.map (fun m => m.1)).take
        (ms.findIdx (fun m => !(bg m.1)) + 1) :=
  process_old_messages_eq_take bg ms

/-- C4 counterexample: in the concrete batch [m1, m2] whose first
consolidation raises, the later turn m2 is never attempted, contradicting
the claim that a later item can still run after an earlier failure. -/
theorem c4_counterexample :
    process_old_messages bad_bg [("m1", []), ("m2", [])] = ["m1"] ∧
    "m2" ∉ process_old_messages bad_bg [("m1", []), ("m2", [])] := by
  decide

/-! ## Claims C6 and C10: NotFound paths of update/delete -/

/-- C6: on a loaded database, update_document and delete_document with an
absent doc_id return false, as total functions (no exception path). -/
theorem c6_notfound_returns_false (e : String → Vec) (st : RAGSystem)
    (doc_id new_document : String) (new_metadata : Option Meta)
    (h : dict_get st.documents doc_id = none) :
    (update_document e st doc_id new_document new_metadata).1 = false ∧
    (delete_document e st doc_id).1 = false := by
  unfold update_document delete_document
  rw [h]
  simp

/-- C6 witness at a concrete store and absent doc_id. -/
theorem c6_witness :
    dict_get st_ab.documents "doc_9" = none ∧
    ((update_document demo_embed st_ab "doc_9" "x" none).1 = false ∧
      (delete_document demo_embed st_ab "doc_9").1 = false) :=
  ⟨by decide,
    c6_notfound_returns_false demo_embed st_ab "doc_9" "x" none (by decide)⟩

/-- C10: on a loaded database, update_document and delete_document with
an absent doc_id leave the whole state (documents, metadata, counter,
index and save_count, hence no snapshot write) unchanged. -/
theorem c10_notfound_state_unchanged (e : String → Vec) (st : RAGSystem)
    (doc_id new_document : String) (new_metadata : Option Meta)
    (h : dict_get st.documents doc_id = none) :
    (update_document e st doc_id new_document new_metadata).2 = st ∧
    (delete_document e st doc_id).2 = st := by
  unfold update_document delete_document
  rw [h]
  simp

/-- C10 witness at a concrete store and absent doc_id. -/
theorem c10_witness :
    dict_get st_ab.documents "doc_9" = none ∧
    ((update_document demo_embed st_ab "doc_9" "x" none).2 = st_ab ∧
      (delete_document demo_embed st_ab "doc_9").2 = st_ab) :=
  ⟨by decide,
    c10_notfound_state_unchanged demo_embed st_ab "doc_9" "x" none
      (by decide)⟩

/-! ## Claim C5: consolidation failure is swallowed, trimming proceeds -/

/-- C5: for every batch and every background failure behavior, the
triggering window management is a total function whose resulting state
(a) is identical to the all-success state, so a consolidation exception
never reaches the caller or changes the outcome, (b) trims the window to
its newest N pairs, (c) trims the mapping in step, and (d) attempts the
evicted prefix at most up to its first failure, which is dropped with the
rest of the prefix and hence never retried. -/
theorem c5_failure_swallowed_trim_proceeds (bg : String → Bool)
    (cb : ChatBot) (hn : 1 ≤ cb.max_history_length)
    (hp : cb.max_working_length ≤ cb.conversation_history.length / 2) :
    (manage_conversation_history bg cb).1 =
      (manage_conversation_history (fun _ => true) cb).1 ∧
    (manage_conversation_history bg cb).1.conversation_history =
      cb.conversation_history.drop
        (cb.conversation_history.length - cb.max_history_length * 2) ∧
    (manage_conversation_history bg cb).1.message_memory_mapping =
      cb.message_memory_mapping.drop
        (cb.message_memory_mapping.length - cb.max_history_length) ∧
    (manage_conversation_history bg cb).2 =
      ((cb.message_memory_mapping.take
          (cb.conversation_history.length / 2 -
            cb.max_history_length)).map (fun m => m.1)).take
        ((cb.message_memory_mapping.take
            (cb.conversation_history.length / 2 -
              cb.max_history_length)).findIdx
          (fun m => !(bg m.1)) + 1) := by
  have h2 : ¬ cb.max_history_length * 2 = 0 := by omega
  have h1 : ¬ cb.max_history_length = 0 := by omega
  unfold manage_conversation_history py_tail
  simp only [hp, if_true, h2, h1, if_false]
  refine ⟨trivial, trivial, trivial, ?_⟩
  by_cases he : (cb.message_memory_mapping.take
      (cb.conversation_history.length / 2 -
        cb.max_history_length)).isEmpty = true
  · rw [List.isEmpty_iff] at he
    simp [he]
  · rw [Bool.not_eq_true] at he
    simp only [he, Bool.false_eq_true, if_false]
    exact process_old_messages_eq_take bg _

/-- C5 witness: a six-pair window with N = 3 whose oldest evicted turn
fails to consolidate. -/
theorem c5_witness :
    1 ≤ chat6.max_history_length ∧
    chat6.max_working_length ≤ chat6.conversation_history.length / 2 ∧
    ((manage_conversation_history bad_bg chat6).1 =
        (manage_conversation_history (fun _ => true) chat6).1 ∧
      (manage_conversation_history bad_bg chat6).1.conversation_history =
        chat6.conversation_history.drop
          (chat6.conversation_history.length -
            chat6.max_history_length * 2) ∧
      (manage_conversation_history bad_bg chat6).1.message_memory_mapping =
        chat6.message_memory_mapping.drop
          (chat6.message_memory_mapping.length -
            chat6.max_history_length) ∧
      (manage_conversation_history bad_bg chat6).2 =
        ((chat6.message_memory_mapping.take
            (chat6.conversation_history.length / 2 -
              chat6.max_history_length)).map (fun m => m.1)).take
          ((chat6.message_memory_mapping.take
              (chat6.conversation_history.length / 2 -
                chat6.max_history_length)).findIdx
            (fun m => !(bad_bg m.1)) + 1)) :=
  ⟨by decide, by decide,
    c5_failure_swallowed_trim_proceeds bad_bg chat6 (by decide) (by decide)⟩

/-! ## Claim C8: delete removes the document from count and results -/

theorem rebuild_documents_eq (e : String → Vec) (st : RAGSystem) (p : ℕ) :
    (rebuild_index_without_document e st p).documents = st.documents := by
  simp only [rebuild_index_without_document]
  split <;> split <;> rfl

theorem delete_document_found (e : String → Vec) (st : RAGSystem)
    (doc_id txt : String) (hmem : dict_get st.documents doc_id = some txt) :
    (delete_document e st doc_id).1 = true ∧
    (delete_document e st doc_id).2.documents =
      dict_erase st.documents doc_id := by
  unfold delete_document
  rw [hmem]
  simp [rebuild_documents_eq]

theorem dict_erase_length (d : List (String × α)) (k : String) (v : α)
    (hmem : dict_get d k = some v)
    (hnd : (d.map (fun kv => kv.1)).Nodup) :
    d.length = (dict_erase d k).length + 1 := by
  induction d with
  | nil => simp [dict_get] at hmem
  | cons kv rest ih =>
    rw [List.map_cons, List.nodup_cons] at hnd
    by_cases hk : (kv.1 == k) = true
    · have hkeq : kv.1 = k := eq_of_beq hk
      have hrest : dict_erase rest k = rest := by
        apply List.filter_eq_self.mpr
        intro a ha
        have hne : a.1 ≠ k := by
          intro hak
          exact hnd.1 (hkeq ▸ hak ▸ List.mem_map_of_mem (fun kv => kv.1) ha)
        simp [hne]
      unfold dict_erase
      rw [List.filter_cons]
      have hbne : (kv.1 != k) = false := by simp [hkeq]
      rw [hbne]
      simp only [Bool.false_eq_true, if_false]
      unfold dict_erase at hrest
      rw [hrest]
      simp
    · have hk2 : (kv.1 == k) = false := by rwa [Bool.not_eq_true] at hk
      have hmem2 : dict_get rest k = some v := by
        unfold dict_get at hmem ⊢
        rwa [List.find?_cons, hk2] at hmem
      unfold dict_erase
      rw [List.filter_cons]
      have hbne : (kv.1 != k) = true := by simp [bne, hk2]
      rw [hbne]
      simp only [if_true]
      have := ih hmem2 hnd.2
      unfold dict_erase at this
      simp only [List.length_cons]
      omega

theorem dict_erase_key_not_mem (d : List (String × α)) (k : String) :
    k ∉ (dict_erase d k).map (fun kv => kv.1) := by
  intro hmem
  rw [List.mem_map] at hmem
  obtain ⟨kv, hkv, hkey⟩ := hmem
  rw [dict_erase, List.mem_filter] at hkv
  have h2 := hkv.2
  simp [hkey] at h2

theorem search_mem_keys (e : String → Vec) (st : RAGSystem) (q : String)
    (k : ℕ) (r : String × String × ℤ × Meta) (hr : r ∈ search e st q k) :
    r.1 ∈ st.documents.map (fun kv => kv.1) := by
  simp only [search] at hr
  split at hr
  · exact absurd hr (List.not_mem_nil r)
  · rw [List.mem_filterMap] at hr
    obtain ⟨p, hp, hf⟩ := hr
    by_cases hlt : p.1 < (st.documents.map (fun kv => kv.1)).length
    · rw [if_pos hlt] at hf
      have hr1 : r.1 =
          (st.documents.map (fun kv => kv.1)).getD p.1 "" := by
        have := Option.some.inj hf
        rw [← this]
      rw [hr1, List.getD_eq_getElem?_getD, List.getElem?_eq_getElem hlt]
      exact List.getElem_mem hlt
    · rw [if_neg hlt] at hf
      exact absurd hf (by simp)

/-- C8: deleting a present doc_id returns true, makes the document count
reported by get_stats drop by exactly one, and afterwards no search on
any query and any top_k can return that doc_id. -/
theorem c8_delete_removes_document (e : String → Vec) (st : RAGSystem)
    (doc_id txt q : String) (k : ℕ) (r : String × String × ℤ × Meta)
    (hmem : dict_get st.documents doc_id = some txt)
    (hnd : (st.documents.map (fun kv => kv.1)).Nodup) :
    (delete_document e st doc_id).1 = true ∧
    (get_stats st).num_documents =
      (get_stats (delete_document e st doc_id).2).num_documents + 1 ∧
    (r ∈ search e (delete_document e st doc_id).2 q k → r.1 ≠ doc_id) := by
  obtain ⟨hres, hdocs⟩ := delete_document_found e st doc_id txt hmem
  refine ⟨hres, ?_, ?_⟩
  · simp only [get_stats, hdocs]
    exact dict_erase_length st.documents doc_id txt hmem hnd
  · intro hr hcontra
    have hkeys := search_mem_keys e _ q k r hr
    rw [hdocs, hcontra] at hkeys
    exact dict_erase_key_not_mem st.documents doc_id hkeys

/-- C8 witness: deleting doc_0 from the two-document store. -/
theorem c8_witness :
    dict_get st_ab.documents "doc_0" = some "a" ∧
    (st_ab.documents.map (fun kv => kv.1)).Nodup ∧
    ((delete_document demo_embed st_ab "doc_0").1 = true ∧
      (get_stats st_ab).num_documents =
        (get_stats (delete_document demo_embed st_ab "doc_0").2).num_documents
          + 1 ∧
      (("doc_0", "a", (1 : ℤ), ([] : Meta)) ∈
          search demo_embed (delete_document demo_embed st_ab "doc_0").2
            "a" 5 →
        ("doc_0", "a", (1 : ℤ), ([] : Meta)).1 ≠ "doc_0")) :=
  ⟨by decide, by decide,
    c8_delete_removes_document demo_embed st_ab "doc_0" "a" "a" 5
      ("doc_0", "a", (1 : ℤ), ([] : Meta)) (by decide) (by decide)⟩

/-! ## Selection-sort correctness for the modelled faiss top-k -/

theorem mem_of_mem_remove_first (m x : ℕ × ℤ) :
    ∀ (l : List (ℕ × ℤ)), x ∈ remove_first m l → x ∈ l := by
  intro l
  induction l with
  | nil => intro h; simp [remove_first] at h
  | cons a as ih =>
    intro h
    simp only [remove_first] at h
    by_cases ham : a = m
    · rw [if_pos ham] at h
      exact List.mem_cons_of_mem a h
    · rw [if_neg ham] at h
      rcases List.mem_cons.mp h with hxa | hxs
      · exact hxa ▸ List.mem_cons_self a as
      · exact List.mem_cons_of_mem a (ih hxs)

theorem length_remove_first (m : ℕ × ℤ) :
    ∀ (l : List (ℕ × ℤ)), m ∈ l →
      (remove_first m l).length + 1 = l.length := by
  intro l
  induction l with
  | nil => intro h; simp at h
  | cons a as ih =>
    intro h
    simp only [remove_first]
    by_cases ham : a = m
    · rw [if_pos ham]
      simp
    · rw [if_neg ham]
      have hmas : m ∈ as := by
        rcases List.mem_cons.mp h with hma | hmas
        · exact absurd hma.symm ham
        · exact hmas
      simp only [List.length_cons]
      rw [← ih hmas]

theorem perm_cons_remove_first (m : ℕ × ℤ) :
    ∀ (l : List (ℕ × ℤ)), m ∈ l →
      List.Perm l (m :: remove_first m l) := by
  intro l
  induction l with
  | nil => intro h; simp at h
  | cons a as ih =>
    intro h
    simp only [remove_first]
    by_cases ham : a = m
    · rw [if_pos ham, ham]
    · rw [if_neg ham]
      have hmas : m ∈ as := by
        rcases List.mem_cons.mp h with hma | hmas
        · exact absurd hma.symm ham
        · exact hmas
      exact ((ih hmas).cons a).trans (List.Perm.swap m a _)

theorem argmax_entry_mem :
    ∀ (l : List (ℕ × ℤ)) (m : ℕ × ℤ), argmax_entry l = some m → m ∈ l := by
  intro l
  induction l with
  | nil => intro m h; simp [argmax_entry] at h
  | cons a as ih =>
    intro m h
    simp only [argmax_entry] at h
    cases has : argmax_entry as with
    | none =>
      rw [has] at h
      dsimp only at h
      obtain rfl := Option.some.inj h
      exact List.mem_cons_self a as
    | some b =>
      rw [has] at h
      dsimp only at h
      by_cases hab : a.2 < b.2
      · rw [if_pos hab] at h
        obtain rfl := Option.some.inj h
        exact List.mem_cons_of_mem a (ih b has)
      · rw [if_neg hab] at h
        obtain rfl := Option.some.inj h
        exact List.mem_cons_self a as

theorem argmax_entry_le :
    ∀ (l : List (ℕ × ℤ)) (m : ℕ × ℤ), argmax_entry l = some m →
      ∀ x ∈ l, x.2 ≤ m.2 := by
  intro l
  induction l with
  | nil => intro m h x hx; simp at hx
  | cons a as ih =>
    intro m h x hx
    simp only [argmax_entry] at h
    cases has : argmax_entry as with
    | none =>
      rw [has] at h
      dsimp only at h
      obtain rfl := Option.some.inj h
      rcases List.mem_cons.mp hx with hxa | hxas
      · rw [hxa]
      · exfalso
        have hnil : as = [] := by
          cases as with
          | nil => rfl
          | cons c cs =>
            exfalso
            simp only [argmax_entry] at has
            cases hcs : argmax_entry cs with
            | none => rw [hcs] at has; dsimp only at has; simp at has
            | some d =>
              rw [hcs] at has
              dsimp only at has
              by_cases hcd : c.2 < d.2
              · rw [if_pos hcd] at has; simp at has
              · rw [if_neg hcd] at has; simp at has
        rw [hnil] at hxas
        simp at hxas
    | some b =>
      rw [has] at h
      dsimp only at h
      by_cases hab : a.2 < b.2
      · rw [if_pos hab] at h
        obtain rfl := Option.some.inj h
        rcases List.mem_cons.mp hx with hxa | hxas
        · rw [hxa]; exact le_of_lt hab
        · exact ih b has x hxas
      · rw [if_neg hab] at h
        obtain rfl := Option.some.inj h
        rcases List.mem_cons.mp hx with hxa | hxas
        · rw [hxa]
        · exact le_trans (ih b has x hxas) (le_of_not_lt hab)

theorem argmax_entry_eq_none (l : List (ℕ × ℤ)) :
    argmax_entry l = none ↔ l = [] := by
  constructor
  · intro h
    cases l with
    | nil => rfl
    | cons a as =>
      exfalso
      simp only [argmax_entry] at h
      cases has : argmax_entry as with
      | none => rw [has] at h; dsimp only at h; simp at h
      | some b =>
        rw [has] at h
        dsimp only at h
        by_cases hab : a.2 < b.2
        · rw [if_pos hab] at h; simp at h
        · rw [if_neg hab] at h; simp at h
  · intro h; subst h; rfl

theorem argmax_entry_unique :
    ∀ (l : List (ℕ × ℤ)) (m : ℕ × ℤ), m ∈ l →
      (∀ x ∈ l, x = m ∨ x.2 < m.2) → argmax_entry l = some m := by
  intro l
  induction l with
  | nil => intro m hm; simp at hm
  | cons a as ih =>
    intro m hm hdom
    simp only [argmax_entry]
    cases has : argmax_entry as with
    | none =>
      dsimp only
      have hnil : as = [] := (argmax_entry_eq_none as).mp has
      subst hnil
      have hma : m = a := by
        rcases List.mem_cons.mp hm with h | h
        · exact h
        · simp at h
      rw [hma]
    | some b =>
      dsimp only
      have hb : b ∈ as := argmax_entry_mem as b has
      rcases List.mem_cons.mp hm with hma | hmas
      · subst hma
        rcases hdom b (List.mem_cons_of_mem _ hb) with hbm | hblt
        · rw [hbm, if_neg (lt_irrefl _)]
        · rw [if_neg (not_lt_of_gt hblt)]
      · have hmb : b = m := by
          have heq := ih m hmas (fun x hx => hdom x (List.mem_cons_of_mem _ hx))
          rw [heq] at has
          exact (Option.some.inj has).symm
        subst hmb
        rcases hdom a (List.mem_cons_self a as) with ham | halt
        · rw [ham, if_neg (lt_irrefl _)]
        · rw [if_pos halt]

theorem select_top_subset :
    ∀ (k : ℕ) (l : List (ℕ × ℤ)) (x : ℕ × ℤ),
      x ∈ select_top k l → x ∈ l := by
  intro k
  induction k with
  | zero => intro l x hx; simp [select_top] at hx
  | succ k ih =>
    intro l x hx
    simp only [select_top] at hx
    cases ha : argmax_entry l with
    | none => rw [ha] at hx; dsimp only at hx; simp at hx
    | some m =>
      rw [ha] at hx
      dsimp only at hx
      rcases List.mem_cons.mp hx with hxm | hxs
      · exact hxm ▸ argmax_entry_mem l m ha
      · exact mem_of_mem_remove_first m x _ (ih _ x hxs)

theorem select_top_sorted_ge :
    ∀ (k : ℕ) (l : List (ℕ × ℤ)),
      (select_top k l).Pairwise (fun a b => b.2 ≤ a.2) := by
  intro k
  induction k with
  | zero => intro l; simp [select_top]
  | succ k ih =>
    intro l
    simp only [select_top]
    cases ha : argmax_entry l with
    | none => dsimp only; simp
    | some m =>
      dsimp only
      rw [List.pairwise_cons]
      refine ⟨?_, ih _⟩
      intro x hx
      exact argmax_entry_le l m ha x
        (mem_of_mem_remove_first m x _ (select_top_subset k _ x hx))

theorem select_top_take :
    ∀ (n k : ℕ) (l : List (ℕ × ℤ)), l.length = n →
      select_top k l = (select_top n l).take k := by
  intro n
  induction n with
  | zero =>
    intro k l hl
    rw [List.length_eq_zero] at hl
    subst hl
    cases k <;> simp [select_top, argmax_entry]
  | succ n ih =>
    intro k l hl
    have hne : l ≠ [] := by
      intro h; subst h; simp at hl
    cases ha : argmax_entry l with
    | none => exact absurd ((argmax_entry_eq_none l).mp ha) hne
    | some m =>
      have hm : m ∈ l := argmax_entry_mem l m ha
      have herase : (remove_first m l).length = n := by
        have := length_remove_first m l hm
        omega
      cases k with
      | zero => simp [select_top]
      | succ k =>
        simp only [select_top, ha, List.take_succ_cons]
        rw [ih k (remove_first m l) herase]

theorem select_top_perm :
    ∀ (n : ℕ) (l : List (ℕ × ℤ)), l.length = n →
      List.Perm (select_top n l) l := by
  intro n
  induction n with
  | zero =>
    intro l hl
    rw [List.length_eq_zero] at hl
    subst hl
    exact List.Perm.refl []
  | succ n ih =>
    intro l hl
    have hne : l ≠ [] := by
      intro h; subst h; simp at hl
    cases ha : argmax_entry l with
    | none => exact absurd ((argmax_entry_eq_none l).mp ha) hne
    | some m =>
      have hm : m ∈ l := argmax_entry_mem l m ha
      have herase : (remove_first m l).length = n := by
        have := length_remove_first m l hm
        omega
      simp only [select_top, ha]
      exact ((ih (remove_first m l) herase).cons m).trans
        (perm_cons_remove_first m l hm).symm

/-! ## Equality of the two top-k computations on tie-free scores -/

theorem select_top_full_sorted_gt (l : List (ℕ × ℤ))
    (hdist : l.Pairwise (fun a b => a.2 ≠ b.2)) :
    (select_top l.length l).Pairwise score_gt := by
  have hperm := select_top_perm l.length l rfl
  have hge := select_top_sorted_ge l.length l
  have hne : (select_top l.length l).Pairwise (fun a b => a.2 ≠ b.2) :=
    (List.Perm.pairwise_iff (fun h => Ne.symm h) hperm).mpr hdist
  exact (hge.and hne).imp
    (fun h => lt_of_le_of_ne h.1 (Ne.symm h.2))

theorem insertion_sort_reverse_sorted_gt (l : List (ℕ × ℤ))
    (hdist : l.Pairwise (fun a b => a.2 ≠ b.2)) :
    ((l.insertionSort score_le).reverse).Pairwise score_gt := by
  have hsorted : (l.insertionSort score_le).Pairwise score_le :=
    List.sorted_insertionSort score_le l
  have hge : ((l.insertionSort score_le).reverse).Pairwise
      (fun a b => b.2 ≤ a.2) :=
    List.pairwise_reverse.mpr hsorted
  have hperm : List.Perm ((l.insertionSort score_le).reverse) l :=
    ((l.insertionSort score_le).reverse_perm).trans
      (List.perm_insertionSort score_le l)
  have hne : ((l.insertionSort score_le).reverse).Pairwise
      (fun a b => a.2 ≠ b.2) :=
    (List.Perm.pairwise_iff (fun h => Ne.symm h) hperm).mpr hdist
  exact (hge.and hne).imp
    (fun h => lt_of_le_of_ne h.1 (Ne.symm h.2))

theorem select_top_full_eq_sorted (l : List (ℕ × ℤ))
    (hdist : l.Pairwise (fun a b => a.2 ≠ b.2)) :
    select_top l.length l = (l.insertionSort score_le).reverse := by
  have hperm : List.Perm (select_top l.length l)
      ((l.insertionSort score_le).reverse) :=
    (select_top_perm l.length l rfl).trans
      (((l.insertionSort score_le).reverse_perm).trans
        (List.perm_insertionSort score_le l)).symm
  exact List.eq_of_perm_of_sorted hperm
    (select_top_full_sorted_gt l hdist)
    (insertion_sort_reverse_sorted_gt l hdist)

theorem take_min_length (l : List α) (k : ℕ) :
    l.take (min k l.length) = l.take k := by
  rcases le_total k l.length with h | h
  · rw [min_eq_left h]
  · rw [min_eq_right h, List.take_length,
      List.take_of_length_le h]

theorem select_top_eq_sorted_take (l : List (ℕ × ℤ)) (k : ℕ)
    (hdist : l.Pairwise (fun a b => a.2 ≠ b.2)) :
    select_top k l = ((l.insertionSort score_le).reverse).take k := by
  rw [select_top_take l.length k l rfl, select_top_full_eq_sorted l hdist]

/-! ## idx_map lemmas -/

theorem idx_map_snd :
    ∀ (i : ℕ) (s : List ℤ), (idx_map i s).map (fun p => p.2) = s := by
  intro i s
  induction s generalizing i with
  | nil => rfl
  | cons a as ih =>
    simp only [idx_map, List.map_cons, ih]

theorem idx_map_length :
    ∀ (i : ℕ) (s : List ℤ), (idx_map i s).length = s.length := by
  intro i s
  induction s generalizing i with
  | nil => rfl
  | cons a as ih =>
    simp only [idx_map, List.length_cons, ih]

theorem idx_map_append_singleton :
    ∀ (i : ℕ) (s : List ℤ) (y : ℤ),
      idx_map i (s ++ [y]) = idx_map i s ++ [(i + s.length, y)] := by
  intro i s
  induction s generalizing i with
  | nil => intro y; simp [idx_map]
  | cons a as ih =>
    intro y
    simp only [List.cons_append, idx_map, List.length_cons, List.append_eq]
    rw [ih (i + 1) y]
    have heq : i + 1 + as.length = i + (as.length + 1) := by omega
    rw [heq]

theorem idx_map_getD :
    ∀ (s : List ℤ) (i : ℕ) (x : ℕ × ℤ), x ∈ idx_map i s →
      i ≤ x.1 ∧ s.getD (x.1 - i) 0 = x.2 := by
  intro s
  induction s with
  | nil => intro i x hx; simp [idx_map] at hx
  | cons a as ih =>
    intro i x hx
    simp only [idx_map] at hx
    rcases List.mem_cons.mp hx with hxe | hxs
    · subst hxe
      simp
    · obtain ⟨hle, hget⟩ := ih (i + 1) x hxs
      refine ⟨by omega, ?_⟩
      have hsub : x.1 - i = (x.1 - (i + 1)) + 1 := by omega
      rw [hsub]
      simpa using hget

theorem idx_map_mem_snd (i : ℕ) (s : List ℤ) (x : ℕ × ℤ)
    (hx : x ∈ idx_map i s) : x.2 ∈ s := by
  have := List.mem_map_of_mem (fun p => p.2) hx
  rwa [idx_map_snd] at this

theorem map_eq_self_of_forall (l : List α) (f : α → α)
    (h : ∀ x ∈ l, f x = x) : l.map f = l := by
  induction l with
  | nil => rfl
  | cons a as ih =>
    rw [List.map_cons, h a (List.mem_cons_self a as),
      ih (fun x hx => h x (List.mem_cons_of_mem a hx))]

/-! ## Claim C7: untrained-IVF exhaustive fallback matches the exact
variant

Both paths rank the same similarity vector: the exact variant through the
modelled index search (selection of maxima), the fallback through
argsort-descending.  On tie-free scores the two orders coincide; the
source itself imposes no tie-break beyond what the index returns. -/

/-- C7: on the same corpus with tie-free similarity scores, search on the
untrained clustered store returns exactly the ranking of the exact (flat)
store whose index is aligned with its documents. -/
theorem c7_untrained_fallback_matches_flat (e : String → Vec)
    (stE stC : RAGSystem) (q : String) (top_k : ℕ)
    (hE : stE.index_type = .flat)
    (hC : stC.index_type = .ivf)
    (hCt : stC.index.is_trained = false)
    (hdocs : stC.documents = stE.documents)
    (hmeta : stC.metadata = stE.metadata)
    (halign : stE.index.vecs = stE.documents.map (fun kv => e kv.2))
    (hdist : (stE.documents.map (fun kv => dot (e kv.2) (e q))).Pairwise
        (fun a b => a ≠ b)) :
    search e stC q top_k = search e stE q top_k := by
  have hdistP : (idx_map 0 (stE.documents.map
      (fun kv => dot (e kv.2) (e q)))).Pairwise (fun a b => a.2 ≠ b.2) := by
    have h2 := hdist
    rw [← idx_map_snd 0 (stE.documents.map
      (fun kv => dot (e kv.2) (e q)))] at h2
    exact List.pairwise_map.mp h2
  have hscores : stE.index.vecs.map (fun v => dot v (e q)) =
      stE.documents.map (fun kv => dot (e kv.2) (e q)) := by
    rw [halign, List.map_map]
    rfl
  have hrevlen : ((((idx_map 0 (stE.documents.map
      (fun kv => dot (e kv.2) (e q)))).insertionSort
        score_le).reverse).length) = stE.documents.length := by
    rw [List.length_reverse, List.length_insertionSort, idx_map_length,
      List.length_map]
  have hfall :
      ((np_argsort (stE.documents.map
          (fun kv => dot (e kv.2) (e q)))).reverse.take top_k).map
        (fun i => (i, (stE.documents.map
          (fun kv => dot (e kv.2) (e q))).getD i 0)) =
      (((idx_map 0 (stE.documents.map
          (fun kv => dot (e kv.2) (e q)))).insertionSort
            score_le).reverse).take top_k := by
    unfold np_argsort
    rw [← List.map_reverse, ← List.map_take, List.map_map]
    apply map_eq_self_of_forall
    intro x hx
    have hx2 : x ∈ idx_map 0 (stE.documents.map
        (fun kv => dot (e kv.2) (e q))) := by
      have h3 := List.mem_of_mem_take hx
      rw [List.mem_reverse] at h3
      exact (List.mem_insertionSort score_le).mp h3
    obtain ⟨_, hget⟩ := idx_map_getD _ 0 x hx2
    rw [Nat.sub_zero] at hget
    show (x.1, (stE.documents.map
      (fun kv => dot (e kv.2) (e q))).getD x.1 0) = x
    rw [hget]
  have hflat : faiss_search (e q) stE.index
      (min top_k stE.documents.length) =
      (((idx_map 0 (stE.documents.map
          (fun kv => dot (e kv.2) (e q)))).insertionSort
            score_le).reverse).take top_k := by
    unfold faiss_search
    rw [hscores, select_top_eq_sorted_take _ _ hdistP, ← hrevlen,
      take_min_length]
  simp only [search]
  rw [hdocs, hmeta, hC, hCt, hE]
  by_cases hzero : stE.documents.length = 0
  · rw [if_pos hzero, if_pos hzero]
  · rw [if_neg hzero, if_neg hzero,
      if_pos (⟨rfl, rfl⟩ : IndexType.ivf = IndexType.ivf ∧
        (false = false)),
      if_neg (by simp : ¬ (IndexType.flat = IndexType.ivf ∧
        stE.index.is_trained = false)),
      hfall, hflat]

/-- C7 witness: the two-document corpus under both variants with query
"a" gives identical rankings. -/
theorem c7_witness :
    st_ab.index_type = .flat ∧
    st_ab_ivf.index_type = .ivf ∧
    st_ab_ivf.index.is_trained = false ∧
    st_ab_ivf.documents = st_ab.documents ∧
    st_ab_ivf.metadata = st_ab.metadata ∧
    st_ab.index.vecs = st_ab.documents.map (fun kv => demo_embed kv.2) ∧
    (st_ab.documents.map
      (fun kv => dot (demo_embed kv.2) (demo_embed "a"))).Pairwise
        (fun a b => a ≠ b) ∧
    search demo_embed st_ab_ivf "a" 5 = search demo_embed st_ab "a" 5 :=
  ⟨by decide, by decide, by decide, by decide, by decide, by decide,
    by decide,
    c7_untrained_fallback_matches_flat demo_embed st_ab st_ab_ivf "a" 5
      (by decide) (by decide) (by decide) (by decide) (by decide)
      (by decide) (by decide)⟩

/-! ## Claim C9: add then search-for-the-same-text (corrected)

On an aligned flat store the freshly added document wins search with
score exactly the inner product of its embedding with itself.  On the
actual code this can fail after a delete has corrupted the row-to-document
correspondence (see the counterexample), so the alignment is a hypothesis
of the amended statement. -/

theorem dict_set_append (d : List (String × α)) (k : String) (v : α)
    (hfresh : ∀ kv ∈ d, kv.1 ≠ k) : dict_set d k v = d ++ [(k, v)] := by
  have hany : ¬ (d.any (fun kv => kv.1 == k) = true) := by
    rw [List.any_eq_true]
    rintro ⟨kv, hkv, hbeq⟩
    exact hfresh kv hkv (by simpa using hbeq)
  unfold dict_set
  rw [if_neg hany]

theorem dict_get_append_fresh (d : List (String × α)) (k : String) (v : α)
    (hfresh : ∀ kv ∈ d, kv.1 ≠ k) : dict_get (d ++ [(k, v)]) k = some v := by
  have hany : d.any (fun kv => kv.1 == k) = false := by
    rw [List.any_eq_false]
    intro kv hkv
    simp [hfresh kv hkv]
  unfold dict_get
  rw [find_append_of_not_any _ _ _ hany, List.find?_cons_of_pos _ (by simp)]
  rfl

theorem getD_snoc (l : List α) (x : α) (d : α) :
    (l ++ [x]).getD l.length d = x := by
  rw [List.getD_eq_getElem?_getD, List.getElem?_concat_length]
  rfl

theorem select_top_one (l : List (ℕ × ℤ)) (m : ℕ × ℤ)
    (h : argmax_entry l = some m) : select_top 1 l = [m] := by
  have heq : select_top 1 l =
      (match argmax_entry l with
        | none => []
        | some m => m :: select_top 0 (remove_first m l)) := rfl
  rw [heq, h]
  rfl

theorem add_document_flat (e : String → Vec) (st : RAGSystem)
    (t : String) (md : Meta)
    (hflat : st.index_type = .flat)
    (hfresh : ∀ kv ∈ st.documents,
        kv.1 ≠ "doc_" ++ toString st.doc_counter) :
    add_document e st t md =
      ("doc_" ++ toString st.doc_counter,
        { st with doc_counter := st.doc_counter + 1,
                  documents := st.documents ++
                    [("doc_" ++ toString st.doc_counter, t)],
                  metadata := dict_set st.metadata
                    ("doc_" ++ toString st.doc_counter) md,
                  index := { st.index with
                              vecs := st.index.vecs ++ [e t] },
                  save_count := st.save_count + 1 }) := by
  simp only [add_document, hflat]
  rw [dict_set_append st.documents _ t hfresh]
  simp

/-- C9 amended: provided the flat store's index rows are aligned with its
documents, the embedding of t has inner product 1 with itself, every
stored document scores strictly below 1 against t, and the generated
doc_id is fresh, then add(t) followed by search(t, 1) returns exactly the
new document first with score exactly 1. -/
theorem c9_amended_add_then_search_hits (e : String → Vec)
    (st : RAGSystem) (t : String) (md : Meta)
    (hflat : st.index_type = .flat)
    (halign : st.index.vecs = st.documents.map (fun kv => e kv.2))
    (hunit : dot (e t) (e t) = 1)
    (hdom : ∀ kv ∈ st.documents, dot (e kv.2) (e t) < 1)
    (hfresh : ∀ kv ∈ st.documents,
        kv.1 ≠ "doc_" ++ toString st.doc_counter) :
    search e (add_document e st t md).2 t 1 =
      [((add_document e st t md).1, t, 1, md)] := by
  rw [add_document_flat e st t md hflat hfresh]
  have hscores : (st.index.vecs ++ [e t]).map (fun v => dot v (e t)) =
      st.documents.map (fun kv => dot (e kv.2) (e t)) ++ [1] := by
    rw [halign, List.map_append, List.map_map]
    congr 1
    simp [hunit]
  have hargmax : argmax_entry (idx_map 0
      (st.documents.map (fun kv => dot (e kv.2) (e t)) ++ [1])) =
      some ((st.documents.map (fun kv => dot (e kv.2) (e t))).length,
        1) := by
    apply argmax_entry_unique
    · rw [idx_map_append_singleton, Nat.zero_add]
      exact List.mem_append_right _ (List.mem_singleton_self _)
    · intro x hx
      rw [idx_map_append_singleton, Nat.zero_add] at hx
      rcases List.mem_append.mp hx with hleft | hright
      · right
        have hx2 := idx_map_mem_snd 0 _ x hleft
        rw [List.mem_map] at hx2
        obtain ⟨kv, hkv, hkveq⟩ := hx2
        show x.2 < 1
        rw [← hkveq]
        exact hdom kv hkv
      · left
        exact List.mem_singleton.mp hright
  simp only [search]
  rw [if_neg (by simp), if_neg (by simp [hflat])]
  unfold faiss_search
  dsimp only
  have hmin : min 1 ((st.documents ++
      [("doc_" ++ toString st.doc_counter, t)]).length) = 1 := by
    simp only [List.length_append, List.length_cons, List.length_nil]
    omega
  rw [hmin, hscores, select_top_one _ _ hargmax]
  have hlt : (st.documents.map (fun kv => dot (e kv.2) (e t))).length <
      ((st.documents ++ [("doc_" ++ toString st.doc_counter,
        t)]).map (fun kv => kv.1)).length := by
    simp
  have hgetd : (((st.documents ++ [("doc_" ++ toString st.doc_counter,
      t)]).map (fun kv => kv.1)).getD
        ((st.documents.map (fun kv => dot (e kv.2) (e t))).length) "") =
      "doc_" ++ toString st.doc_counter := by
    rw [List.map_append]
    have hlen2 : (st.documents.map
        (fun kv => dot (e kv.2) (e t))).length =
        (st.documents.map (fun kv => kv.1)).length := by
      simp
    rw [hlen2]
    exact getD_snoc _ _ _
  simp only [List.filterMap_cons, List.filterMap_nil]
  rw [if_pos hlt]
  dsimp only
  rw [hgetd, dict_get_append_fresh st.documents _ t hfresh, dict_get_set]
  rfl

/-- C9 counterexample: in the reachable store state obtained by add "a",
add "b", delete doc_0 (which corrupts the index through the stale-position
rebuild), adding "c" returns doc_2, yet searching for "c" with top_k 1
returns doc_1 first, not the doc_id the add produced. -/
theorem c9_counterexample :
    (add_document demo_embed st_ab_del0 "c" []).1 = "doc_2" ∧
    (search demo_embed st_ab_del0_c "c" 1).map (fun r => r.1) =
      ["doc_1"] ∧
    "doc_1" ≠ "doc_2" := by decide

/-- C9 witness: adding "c" to the clean two-document flat store and
searching for it returns the new doc_2 first with score exactly 1. -/
theorem c9_witness :
    st_ab.index_type = .flat ∧
    st_ab.index.vecs = st_ab.documents.map (fun kv => demo_embed kv.2) ∧
    dot (demo_embed "c") (demo_embed "c") = 1 ∧
    dot (demo_embed "a") (demo_embed "c") < 1 ∧
    dot (demo_embed "b") (demo_embed "c") < 1 ∧
    search demo_embed (add_document demo_embed st_ab "c" []).2 "c" 1 =
      [((add_document demo_embed st_ab "c" []).1, "c", 1, [])] :=
  ⟨by decide, by decide, by decide, by decide, by decide,
    c9_amended_add_then_search_hits demo_embed st_ab "c" []
      (by decide) (by decide) (by decide) (by decide) (by decide)⟩
